import Mathlib

/-!
Shallow embedding of `src/underbar.js` (an underscore-style utility
library) and proofs about it.

Conventions of the embedding:
* JavaScript values are modelled by `JSVal`, a universe of the primitive
  values the claims exercise (undefined, booleans, integers as the numbers,
  strings).  Arrays are `List JSVal`; plain objects are association lists
  `JSObj` over their own enumerable string keys, in insertion order (the
  prototype chain is not modelled).
* Reading a missing index or key yields `JSVal.undef`, as in JavaScript.
* Functions that mutate an argument in place (`_.sortBy`, `_.extend`,
  `_.defaults`) are embedded as functions returning the final contents of
  that argument; in the source the returned reference is the mutated
  argument itself, so the returned value is exactly the argument's
  post-call contents.
* Stateful decorators (`_.once`, `_.memoize`) are embedded by explicit
  state passing: one call maps a state and an argument list to a result,
  a new state, and a flag recording whether the wrapped function was
  invoked; a call sequence is a fold over the list of argument lists.
* `Math.random` is modelled by an arbitrary stream of naturals, and the
  `while` loop of `_.shuffle` by a fuel parameter: `none` means the fuel
  was exhausted with the loop still running.
-/

namespace Underbar

/-- The universe of JavaScript primitive values used by the claims. -/
inductive JSVal where
  | undef : JSVal
  | bool : Bool → JSVal
  | num : Int → JSVal
  | str : String → JSVal
deriving DecidableEq, Repr

/-- A JavaScript object: its own enumerable properties as an association
list of string keys and values, in insertion order.  `for (var key in o)`
enumerates these pairs in list order.  The prototype chain is not
modelled. -/
abbrev JSObj := List (String × JSVal)

/-- `o[k]`: the first binding of `k`, or `undefined` when `k` is absent. -/
def objGet (o : JSObj) (k : String) : JSVal :=
  (o.lookup k).getD JSVal.undef

/-- `o[k] = v`: replace the binding of `k` when present, otherwise append
the new binding (JavaScript adds new keys at the end of insertion
order). -/
def objSet (o : JSObj) (k : String) (v : JSVal) : JSObj :=
  match o with
  | [] => [(k, v)]
  | (k₀, v₀) :: t => if k₀ = k then (k, v) :: t else (k₀, v₀) :: objSet t k v

@[simp] theorem objGet_nil (k : String) : objGet [] k = JSVal.undef := rfl

theorem objGet_cons (k₀ : String) (v₀ : JSVal) (t : JSObj) (k : String) :
    objGet ((k₀, v₀) :: t) k = if k = k₀ then v₀ else objGet t k := by
  simp only [objGet, List.lookup]
  by_cases h : k = k₀
  · simp [h]
  · simp [h, beq_eq_false_iff_ne.mpr h]

theorem objGet_objSet_self (o : JSObj) (k : String) (v : JSVal) :
    objGet (objSet o k v) k = v := by
  induction o with
  | nil => simp [objSet, objGet_cons]
  | cons p t ih =>
    obtain ⟨k₀, v₀⟩ := p
    by_cases h : k₀ = k
    · simp [objSet, h, objGet_cons]
    · simp only [objSet, if_neg h]
      rw [objGet_cons, if_neg (fun hh => h hh.symm), ih]

theorem objGet_objSet_ne (o : JSObj) (k k' : String) (v : JSVal)
    (h : k' ≠ k) : objGet (objSet o k v) k' = objGet o k' := by
  induction o with
  | nil => simp [objSet, objGet_cons, h]
  | cons p t ih =>
    obtain ⟨k₀, v₀⟩ := p
    by_cases hk : k₀ = k
    · subst hk
      rw [objSet, if_pos rfl, objGet_cons, objGet_cons, if_neg h, if_neg h]
    · rw [objSet, if_neg hk, objGet_cons, objGet_cons, ih]

/-- `_.identity`: returns whatever value is passed as the argument. -/
def jsIdentity (val : JSVal) : JSVal := val

/-- The relative-index computation of `Array.prototype.slice`: a negative
index counts from the end, and the result is clamped to `[0, len]`. -/
def jsRelIndex (len : Nat) (i : Int) : Nat :=
  (if i < 0 then max ((len : Int) + i) 0 else min i (len : Int)).toNat

/-- `array.slice(s, e)` on the modelled arrays. -/
def jsSlice (l : List JSVal) (s e : Int) : List JSVal :=
  (l.take (jsRelIndex l.length e)).drop (jsRelIndex l.length s)

/-- `_.first(array, n)`: `n === undefined ? array[0] : array.slice(0, n)`.
The result is either a single element or an array, so the return type is
the sum of the two shapes. -/
inductive JSRet where
  | val : JSVal → JSRet
  | arr : List JSVal → JSRet
deriving DecidableEq, Repr

def jsFirst (array : List JSVal) (n : Option Int) : JSRet :=
  match n with
  | none => JSRet.val (array.getD 0 JSVal.undef)
  | some n => JSRet.arr (jsSlice array 0 n)

/-- `_.last(array, n)`: `[]` when `n === 0`, the last element itself when
`n === undefined`, and `array.slice(-n)` otherwise (one-argument slice:
the end index is the length). -/
def jsLast (array : List JSVal) (n : Option Int) : JSRet :=
  if n = some 0 then JSRet.arr []
  else
    match n with
    | none => JSRet.val (array.getD (array.length - 1) JSVal.undef)
    | some n => JSRet.arr (jsSlice array (-n) array.length)

/-- `_.map(collection, iterator)` on arrays: `_.each` visits indices
`0, 1, …` in order and the callback pushes `iterator(element)` onto the
results array. -/
def jsMap (iterator : JSVal → JSVal) (collection : List JSVal) : List JSVal :=
  collection.foldl (fun results element => results ++ [iterator element]) []

theorem jsMap_eq_map (iterator : JSVal → JSVal) (collection : List JSVal) :
    jsMap iterator collection = collection.map iterator := by
  have key : ∀ (l : List JSVal) (acc : List JSVal),
      l.foldl (fun results element => results ++ [iterator element]) acc =
        acc ++ l.map iterator := by
    intro l
    induction l with
    | nil => simp
    | cons x t ih => intro acc; simp [List.foldl_cons, ih]
  simpa using key collection []

theorem jsRelIndex_ofNat (len n : Nat) :
    jsRelIndex len (n : Int) = min n len := by
  rw [jsRelIndex, if_neg (by omega)]
  omega

theorem jsRelIndex_negNat (len n : Nat) (h : 0 < n) :
    jsRelIndex len (-(n : Int)) = len - n := by
  rw [jsRelIndex, if_pos (by omega)]
  omega

theorem jsSlice_zero_nat (l : List JSVal) (n : Nat) :
    jsSlice l 0 (n : Int) = l.take n := by
  have h0 : jsRelIndex l.length 0 = 0 := by
    have h := jsRelIndex_ofNat l.length 0
    simpa using h
  rw [jsSlice, h0, List.drop_zero, jsRelIndex_ofNat]
  rcases le_total n l.length with h | h
  · rw [min_eq_left h]
  · rw [min_eq_right h, List.take_length, List.take_of_length_le h]

/-- C5: `_.first(a, n)` with `n` supplied returns the array of the first
`n` elements of `a`, and `_.first(a)` with `n` omitted returns the first
element of `a` itself. -/
theorem first_spec (a : List JSVal) (n : Nat) (x : JSVal) (t : List JSVal) :
    jsFirst a (some (n : Int)) = JSRet.arr (a.take n) ∧
      jsFirst (x :: t) none = JSRet.val x := by
  constructor
  · simp [jsFirst, jsSlice_zero_nat]
  · rfl

/-- C6: mapping `_.identity` over an array returns an equal array,
element for element and in the same order. -/
theorem map_identity (a : List JSVal) : jsMap jsIdentity a = a := by
  rw [jsMap_eq_map]
  have h : jsIdentity = id := rfl
  rw [h, List.map_id]

/-- C10: `_.last(a, 0)` returns the empty array; `_.last(a)` with `n`
undefined returns the last element itself; for positive `n`,
`_.last(a, n)` returns the array of the last `n` elements (the whole
array when `n` is at least the length, since the drop count is then 0). -/
theorem last_spec (a : List JSVal) (n : Nat) (x : JSVal) :
    jsLast a (some 0) = JSRet.arr [] ∧
      jsLast a (some ((n + 1 : Nat) : Int)) =
        JSRet.arr (a.drop (a.length - (n + 1))) ∧
      jsLast (a ++ [x]) none = JSRet.val x := by
  refine ⟨rfl, ?_, ?_⟩
  · have hne : ¬ (some ((n + 1 : Nat) : Int) = some (0 : Int)) := by
      simp only [Option.some.injEq]
      exact_mod_cast Nat.succ_ne_zero n
    have hs : jsRelIndex a.length (-((n + 1 : Nat) : Int)) =
        a.length - (n + 1) := jsRelIndex_negNat a.length (n + 1) (Nat.succ_pos n)
    have he : jsRelIndex a.length (a.length : Int) = a.length := by
      rw [jsRelIndex_ofNat, Nat.min_self]
    simp only [jsLast, if_neg hne, jsSlice, hs, he, List.take_length]
  · have h0 : ¬ ((none : Option Int) = some 0) := by decide
    simp [jsLast, h0, List.getD]

/-- `_.reduce(collection, iterator, accumulator)` on arrays: when the
accumulator is not supplied (`arguments.length < 3`), `collection[0]`
becomes the accumulator (`undefined` on an empty array) and the
collection becomes `collection.slice(1)`; then `_.each` runs
`accumulator = iterator(accumulator, item)` over the items in order. -/
def jsReduce (iterator : JSVal → JSVal → JSVal) (accumulator : Option JSVal)
    (collection : List JSVal) : JSVal :=
  match accumulator with
  | some acc => collection.foldl iterator acc
  | none =>
    (jsSlice collection 1 collection.length).foldl iterator
      (collection.getD 0 JSVal.undef)

/-- The `_.each` loop of `_.reduce`, instrumented to also return the
items passed to the iterator, in order. -/
def jsReduceLoopTrace (iterator : JSVal → JSVal → JSVal) :
    JSVal → List JSVal → JSVal × List JSVal
  | acc, [] => (acc, [])
  | acc, x :: xs =>
    let r := jsReduceLoopTrace iterator (iterator acc x) xs
    (r.1, x :: r.2)

/-- Instrumented `_.reduce(collection, iterator)` without a supplied
accumulator. -/
def jsReduceNoAccTrace (iterator : JSVal → JSVal → JSVal)
    (collection : List JSVal) : JSVal × List JSVal :=
  jsReduceLoopTrace iterator (collection.getD 0 JSVal.undef)
    (jsSlice collection 1 collection.length)

theorem jsReduceLoopTrace_items (iterator : JSVal → JSVal → JSVal) :
    ∀ (acc : JSVal) (l : List JSVal), (jsReduceLoopTrace iterator acc l).2 = l := by
  intro acc l
  induction l generalizing acc with
  | nil => rfl
  | cons x xs ih => simp [jsReduceLoopTrace, ih]

theorem jsSlice_one (l : List JSVal) :
    jsSlice l 1 (l.length : Int) = l.drop 1 := by
  have he : jsRelIndex l.length (l.length : Int) = l.length := by
    rw [jsRelIndex_ofNat, Nat.min_self]
  have h1 : jsRelIndex l.length (1 : Int) = min 1 l.length := by
    have h := jsRelIndex_ofNat l.length 1
    simpa using h
  rw [jsSlice, he, List.take_length, h1]
  cases l with
  | nil => rfl
  | cons x t =>
    have hm : min 1 (x :: t).length = 1 := by
      simp [List.length_cons]
    rw [hm]

/-- C8: `_.reduce(a, f)` without a starting accumulator equals
`_.reduce(a.slice(1), f, a[0])`; the first element is never passed to
the iterator as an item (the items passed are exactly the tail, in
order); and on a one-element array the result is that element with the
iterator never invoked (no items passed at all). -/
theorem reduce_noacc_spec (iterator : JSVal → JSVal → JSVal) (x : JSVal)
    (t : List JSVal) :
    jsReduce iterator none (x :: t) = jsReduce iterator (some x) t ∧
      (jsReduceNoAccTrace iterator (x :: t)).2 = t ∧
      jsReduce iterator none [x] = x ∧
      (jsReduceNoAccTrace iterator [x]).2 = [] := by
  have hs : jsSlice (x :: t) 1 ((x :: t).length : Int) = t := by
    rw [jsSlice_one]
    rfl
  refine ⟨?_, ?_, ?_, ?_⟩
  · rw [jsReduce, jsReduce, hs]
    rfl
  · rw [jsReduceNoAccTrace, hs, jsReduceLoopTrace_items]
  · have hx := jsSlice_one [x]
    rw [jsReduce, hx]
    rfl
  · have hx := jsSlice_one [x]
    rw [jsReduceNoAccTrace, hx, jsReduceLoopTrace_items]
    rfl

/-- Stable insertion used to model `args.sort(function(a, b) { return
b.length - a.length; })` in `_.zip`: the arrays are reordered longest
first, arrays of equal length keeping their relative order (JavaScript
sort is stable and sorts in place, so the loop below iterates over the
sorted arrays). -/
def insertByLenDesc (x : List JSVal) :
    List (List JSVal) → List (List JSVal)
  | [] => [x]
  | y :: ys =>
    if y.length ≤ x.length then x :: y :: ys else y :: insertByLenDesc x ys

def sortByLenDesc : List (List JSVal) → List (List JSVal)
  | [] => []
  | x :: xs => insertByLenDesc x (sortByLenDesc xs)

theorem insertByLenDesc_length (x : List JSVal) (l : List (List JSVal)) :
    (insertByLenDesc x l).length = l.length + 1 := by
  induction l with
  | nil => rfl
  | cons y ys ih =>
    rw [insertByLenDesc]
    by_cases h : y.length ≤ x.length
    · rw [if_pos h]
      rfl
    · rw [if_neg h, List.length_cons, List.length_cons, ih]

theorem sortByLenDesc_length (l : List (List JSVal)) :
    (sortByLenDesc l).length = l.length := by
  induction l with
  | nil => rfl
  | cons x xs ih => rw [sortByLenDesc, insertByLenDesc_length, ih, List.length_cons]

/-- `_.zip(...)`: the argument arrays are sorted longest first in place,
`longestArg` is the first of them, and row `i` of the result collects
`args[j][i]` over the sorted arrays, `undefined` past an array's end.
With no arguments at all, `args.sort(...)[0]` is `undefined` and reading
its `length` raises the host runtime's `TypeError`. -/
def jsZip (args : List (List JSVal)) : Except String (List (List JSVal)) :=
  match sortByLenDesc args with
  | [] => Except.error "TypeError: cannot read property length of undefined"
  | longestArg :: rest =>
    Except.ok ((List.range longestArg.length).map
      (fun i => (longestArg :: rest).map (fun a => a.getD i JSVal.undef)))

/-- C7: the library raises no errors of its own on well-formed inputs:
`_.reduce` on an empty array with no starting accumulator returns
normally (with `undefined`), and `_.zip` applied to at least one array
returns normally; the only failure modelled is the host `TypeError` of
`_.zip()` with no arguments at all. -/
theorem no_error_spec (iterator : JSVal → JSVal → JSVal)
    (args : List (List JSVal)) (h : args ≠ []) :
    jsReduce iterator none [] = JSVal.undef ∧
      ∃ r, jsZip args = Except.ok r := by
  constructor
  · rfl
  · rcases hlen : sortByLenDesc args with _ | ⟨l, rest⟩
    · exfalso
      have hl := sortByLenDesc_length args
      rw [hlen] at hl
      exact h (List.length_eq_zero.mp hl.symm)
    · exact ⟨(List.range l.length).map
          (fun i => (l :: rest).map (fun a => a.getD i JSVal.undef)),
        by simp only [jsZip, hlen]⟩

theorem no_error_spec_witness :
    jsReduce (fun acc item => item) none [] = JSVal.undef ∧
      ∃ r, jsZip [[JSVal.num 1], [JSVal.num 2, JSVal.num 3]] = Except.ok r :=
  no_error_spec (fun acc item => item)
    [[JSVal.num 1], [JSVal.num 2, JSVal.num 3]] (by decide)

/-- The private state of a `_.once(func)` wrapper: the `alreadyCalled`
flag and the `result` variable (initially `undefined`). -/
structure OnceState where
  alreadyCalled : Bool
  result : JSVal
deriving DecidableEq, Repr

/-- One call to the wrapper returned by `_.once(func)`: when
`!alreadyCalled`, run `func`, record its result, set the flag; always
return `result`.  The third component records whether `func` was
invoked by this call. -/
def onceCall (func : List JSVal → JSVal) (s : OnceState)
    (args : List JSVal) : JSVal × OnceState × Bool :=
  if s.alreadyCalled = false then (func args, ⟨true, func args⟩, true)
  else (s.result, s, false)

/-- A sequence of calls to a `_.once` wrapper, from a given state: for
each call, its return value and whether `func` was invoked. -/
def onceRun (func : List JSVal → JSVal) :
    OnceState → List (List JSVal) → List (JSVal × Bool)
  | _, [] => []
  | s, args :: rest =>
    let c := onceCall func s args
    (c.1, c.2.2) :: onceRun func c.2.1 rest

/-- The state a fresh wrapper starts in. -/
def onceInit : OnceState := ⟨false, JSVal.undef⟩

theorem onceRun_called (func : List JSVal → JSVal) (r : JSVal)
    (calls : List (List JSVal)) :
    onceRun func ⟨true, r⟩ calls = List.replicate calls.length (r, false) := by
  induction calls with
  | nil => rfl
  | cons a rest ih => simp [onceRun, onceCall, ih, List.replicate_succ]

/-- C4: across every sequence of calls to the wrapper returned by
`_.once(func)`, the first call invokes `func` and returns its value, and
every later call returns that same value without invoking `func`; in
particular `func` is invoked exactly once on a non-empty call sequence,
never a second time. -/
theorem once_spec (func : List JSVal → JSVal) (c : List JSVal)
    (cs : List (List JSVal)) :
    onceRun func onceInit (c :: cs) =
      (func c, true) :: List.replicate cs.length (func c, false) := by
  simp [onceRun, onceCall, onceInit, onceRun_called]

/-- The host `>` comparison restricted to the modelled value universe:
numbers compare numerically, strings lexicographically, booleans as the
numbers 0 and 1; a comparison involving `undefined` is false (`NaN`).
Numeric coercion of mixed string/number operands is not modelled; no
theorem below depends on the comparator. -/
def jsGt : JSVal → JSVal → Bool
  | JSVal.num a, JSVal.num b => decide (b < a)
  | JSVal.str a, JSVal.str b => decide (b < a)
  | JSVal.bool a, JSVal.bool b => decide ((if b then (1 : Nat) else 0) < (if a then 1 else 0))
  | JSVal.num a, JSVal.bool b => decide ((if b then (1 : Int) else 0) < a)
  | JSVal.bool a, JSVal.num b => decide (b < (if a then (1 : Int) else 0))
  | _, _ => false

/-- One step of `_.sortBy`'s inner loop at index `j`, on the array being
sorted in place: when `collection[j-1]` is `undefined`, or its iterator
value exceeds that of `collection[j]`, the two entries are swapped. -/
def swapStep (newIterator : JSVal → JSVal) (l : List JSVal) (j : Nat) :
    List JSVal :=
  if l.getD (j - 1) JSVal.undef = JSVal.undef ∨
      jsGt (newIterator (l.getD (j - 1) JSVal.undef))
        (newIterator (l.getD j JSVal.undef)) = true then
    (l.set (j - 1) (l.getD j JSVal.undef)).set j (l.getD (j - 1) JSVal.undef)
  else l

/-- The inner loop `for (j = 1; j < i; j++)` with `steps` iterations
remaining, starting at index `j`. -/
def bubbleInner (newIterator : JSVal → JSVal) :
    List JSVal → Nat → Nat → List JSVal
  | l, _, 0 => l
  | l, j, steps + 1 => bubbleInner newIterator (swapStep newIterator l j) (j + 1) steps

/-- The outer loop `for (i = collection.length; i > 0; i--)`: at counter
value `i + 1` the inner loop runs its `i` iterations from `j = 1`. -/
def bubbleOuter (newIterator : JSVal → JSVal) : List JSVal → Nat → List JSVal
  | l, 0 => l
  | l, i + 1 => bubbleOuter newIterator (bubbleInner newIterator l 1 i) i

/-- `_.sortBy(collection, iterator)`: an in-place bubble sort of the
collection by iterator value (`undefined` entries pushed towards the
end), returning the collection itself.  A string iterator is first
wrapped by `newIterator` into the property accessor; the wrapped
function is the parameter here.  Because the loops assign into
`collection` and the function returns `collection`, the returned list is
exactly the input array's post-call contents. -/
def jsSortBy (newIterator : JSVal → JSVal) (collection : List JSVal) :
    List JSVal :=
  bubbleOuter newIterator collection collection.length

theorem set_set_swap_perm (d : JSVal) :
    ∀ (l : List JSVal) (k : Nat), k + 1 < l.length →
      ((l.set k (l.getD (k + 1) d)).set (k + 1) (l.getD k d)).Perm l := by
  intro l
  induction l with
  | nil =>
    intro k h
    exact absurd h (by simp)
  | cons x t ih =>
    intro k h
    cases k with
    | zero =>
      cases t with
      | nil => exact absurd h (by simp)
      | cons y t2 => exact List.Perm.swap x y t2
    | succ k =>
      have h2 : k + 1 < t.length := by
        simpa using h
      exact List.Perm.cons x (ih k h2)

theorem swapStep_length (newIterator : JSVal → JSVal) (l : List JSVal)
    (j : Nat) : (swapStep newIterator l j).length = l.length := by
  rw [swapStep]
  split
  · rw [List.length_set, List.length_set]
  · rfl

theorem swapStep_perm (newIterator : JSVal → JSVal) (l : List JSVal)
    (j : Nat) (h1 : 1 ≤ j) (h2 : j < l.length) :
    (swapStep newIterator l j).Perm l := by
  rw [swapStep]
  split
  · obtain ⟨k, rfl⟩ : ∃ k, j = k + 1 := ⟨j - 1, by omega⟩
    have hk : k + 1 - 1 = k := rfl
    rw [hk]
    exact set_set_swap_perm JSVal.undef l k h2
  · exact List.Perm.refl l

theorem bubbleInner_length (newIterator : JSVal → JSVal) :
    ∀ (steps j : Nat) (l : List JSVal),
      (bubbleInner newIterator l j steps).length = l.length := by
  intro steps
  induction steps with
  | zero => intro j l; rfl
  | succ s ih =>
    intro j l
    rw [bubbleInner, ih, swapStep_length]

theorem bubbleInner_perm (newIterator : JSVal → JSVal) :
    ∀ (steps j : Nat) (l : List JSVal), 1 ≤ j → j + steps ≤ l.length →
      (bubbleInner newIterator l j steps).Perm l := by
  intro steps
  induction steps with
  | zero => intro j l h1 h2; exact List.Perm.refl l
  | succ s ih =>
    intro j l h1 h2
    have hlen := swapStep_length newIterator l j
    have hp1 : (swapStep newIterator l j).Perm l :=
      swapStep_perm newIterator l j h1 (by omega)
    have hp2 := ih (j + 1) (swapStep newIterator l j) (by omega) (by omega)
    exact hp2.trans hp1

theorem bubbleOuter_perm (newIterator : JSVal → JSVal) :
    ∀ (i : Nat) (l : List JSVal), i ≤ l.length →
      (bubbleOuter newIterator l i).Perm l := by
  intro i
  induction i with
  | zero => intro l h; exact List.Perm.refl l
  | succ k ih =>
    intro l h
    have hlen := bubbleInner_length newIterator k 1 l
    have hp1 : (bubbleInner newIterator l 1 k).Perm l :=
      bubbleInner_perm newIterator k 1 l (by omega) (by omega)
    have hp2 := ih (bubbleInner newIterator l 1 k) (by omega)
    exact hp2.trans hp1

/-- C3 (amended): `_.sortBy` sorts its input array in place and returns
it — the array's post-call contents (equal to the returned list, since
the loops assign into the input) are a permutation of its original
contents, not the unchanged original. -/
theorem sortBy_perm (newIterator : JSVal → JSVal) (a : List JSVal) :
    (jsSortBy newIterator a).Perm a :=
  bubbleOuter_perm newIterator a.length a (Nat.le_refl a.length)

/-- C3 counterexample: `_.sortBy([2, 1], _.identity)` leaves its input
array holding `[1, 2]` (the in-place loops assign into the input and
return it), so the input collection is not left unchanged by every
call. -/
theorem sortBy_mutates_counterexample :
    jsSortBy jsIdentity [JSVal.num 2, JSVal.num 1] ≠
      [JSVal.num 2, JSVal.num 1] := by
  decide

/-- `val.toString()` for the modelled primitive values (`undefined`
renders as the empty string inside `Array.prototype.join`). -/
def jsValToString : JSVal → String
  | JSVal.undef => ""
  | JSVal.bool b => if b then "true" else "false"
  | JSVal.num n => toString n
  | JSVal.str s => s

/-- `array.toString()`: the elements' strings joined with commas. -/
def jsArrToString (l : List JSVal) : String :=
  String.intercalate "," (l.map jsValToString)

/-- One Fisher-Yates pass of `_.shuffle`, from index `i` down to 1:
`random = Math.floor(Math.random() * (i + 1))` is modelled by drawing
the next value of the stream `rand` at counter `c` and reducing it into
`[0, i]`; then `arr[random]` and `arr[i]` are swapped. -/
def fyPass (rand : Nat → Nat) : List JSVal → Nat → Nat → List JSVal × Nat
  | arr, c, 0 => (arr, c)
  | arr, c, i + 1 =>
    fyPass rand
      ((arr.set (rand c % (i + 2)) (arr.getD (i + 1) JSVal.undef)).set
        (i + 1) (arr.getD (rand c % (i + 2)) JSVal.undef))
      (c + 1) i

/-- The `while (arr.toString() === array.toString())` loop of
`_.shuffle`, with fuel: `none` means the fuel ran out with the guard
still true, i.e. the loop was still running. -/
def shuffleLoop (rand : Nat → Nat) (array : List JSVal) :
    List JSVal → Nat → Nat → Option (List JSVal)
  | _, _, 0 => none
  | arr, c, fuel + 1 =>
    if jsArrToString arr = jsArrToString array then
      shuffleLoop rand array (fyPass rand arr c (arr.length - 1)).1
        (fyPass rand arr c (arr.length - 1)).2 fuel
    else some arr

/-- `_.shuffle(array)`: `arr` starts as the copy `array.slice()` and the
loop reruns the Fisher-Yates pass until the string forms differ. -/
def jsShuffle (rand : Nat → Nat) (array : List JSVal) (fuel : Nat) :
    Option (List JSVal) :=
  shuffleLoop rand array array 0 fuel

/-- C2 (refuted on the code): on the empty array and on every
one-element array, the Fisher-Yates pass cannot change `arr` (the inner
loop body never runs for `i ≤ 0`), so the guard
`arr.toString() === array.toString()` stays true and the `while` loop of
`_.shuffle` never exits — no amount of fuel makes the call return. -/
theorem shuffle_diverges_on_small (rand : Nat → Nat) (v : JSVal)
    (fuel : Nat) :
    jsShuffle rand [] fuel = none ∧ jsShuffle rand [v] fuel = none := by
  have h1 : ∀ (f c : Nat), shuffleLoop rand [] [] c f = none := by
    intro f
    induction f with
    | zero => intro c; rfl
    | succ k ih => intro c; simp [shuffleLoop, fyPass, ih]
  have h2 : ∀ (f c : Nat), shuffleLoop rand [v] [v] c f = none := by
    intro f
    induction f with
    | zero => intro c; rfl
    | succ k ih => intro c; simp [shuffleLoop, fyPass, ih]
  exact ⟨h1 fuel 0, h2 fuel 0⟩

/-- The body of `_.defaults`' `_.each` callback: assign `obj[key] = value`
exactly when `obj[key] === undefined` at that moment. -/
def defaultsStep (obj : JSObj) (kv : String × JSVal) : JSObj :=
  if objGet obj kv.1 = JSVal.undef then objSet obj kv.1 kv.2 else obj

/-- One `_.reduce` step of `_.defaults`: run the `_.each` callback over
one source object's own enumerable key/value pairs in order. -/
def defaultsMerge (obj arg : JSObj) : JSObj :=
  arg.foldl defaultsStep obj

/-- `_.defaults(obj, ...sources)`: `args` is the whole `arguments` array
(so `obj` itself is its first element) and `_.reduce(args, …, obj)`
folds the merge over it, each step returning and further mutating `obj`;
the function returns `obj` itself, whose final contents this embedding
returns. -/
def jsDefaults (obj : JSObj) (sources : List JSObj) : JSObj :=
  (obj :: sources).foldl defaultsMerge obj

/-- The first value in the list that is not `undefined`, or `undefined`. -/
def firstDefined : List JSVal → JSVal
  | [] => JSVal.undef
  | v :: vs => if v = JSVal.undef then firstDefined vs else v

theorem objGet_eq_undef_of_notmem (o : JSObj) (k : String)
    (h : k ∉ o.map Prod.fst) : objGet o k = JSVal.undef := by
  induction o with
  | nil => rfl
  | cons p t ih =>
    obtain ⟨k₀, v₀⟩ := p
    rw [objGet_cons, if_neg, ih]
    · intro hm
      exact h (by simp [hm])
    · intro hk
      exact h (by simp [hk])

theorem defaultsStep_get_ne (obj : JSObj) (k₀ : String) (v₀ : JSVal)
    (k : String) (h : k ≠ k₀) :
    objGet (defaultsStep obj (k₀, v₀)) k = objGet obj k := by
  rw [defaultsStep]
  split
  · exact objGet_objSet_ne obj k₀ k v₀ h
  · rfl

theorem defaultsMerge_get (arg : JSObj) :
    ∀ (obj : JSObj) (k : String), (arg.map Prod.fst).Nodup →
      objGet (defaultsMerge obj arg) k =
        if objGet obj k = JSVal.undef then objGet arg k else objGet obj k := by
  induction arg with
  | nil =>
    intro obj k _
    by_cases h : objGet obj k = JSVal.undef
    · simp [defaultsMerge, h]
    · simp [defaultsMerge, h]
  | cons p rest ih =>
    intro obj k hnd
    obtain ⟨k₀, v₀⟩ := p
    have hk₀ : k₀ ∉ rest.map Prod.fst := by
      have h := hnd
      simp only [List.map_cons, List.nodup_cons] at h
      exact h.1
    have hrest : (rest.map Prod.fst).Nodup := by
      have h := hnd
      simp only [List.map_cons, List.nodup_cons] at h
      exact h.2
    have hstep : defaultsMerge obj ((k₀, v₀) :: rest) =
        defaultsMerge (defaultsStep obj (k₀, v₀)) rest := rfl
    rw [hstep, ih (defaultsStep obj (k₀, v₀)) k hrest]
    by_cases hk : k = k₀
    · subst hk
      rw [objGet_cons, if_pos rfl]
      by_cases h₀ : objGet obj k = JSVal.undef
      · have hset : defaultsStep obj (k, v₀) = objSet obj k v₀ := by
          rw [defaultsStep, if_pos h₀]
        rw [hset, objGet_objSet_self, if_pos h₀]
        by_cases hv : v₀ = JSVal.undef
        · rw [if_pos hv, objGet_eq_undef_of_notmem rest k hk₀, hv]
        · rw [if_neg hv]
      · have hset : defaultsStep obj (k, v₀) = obj := by
          rw [defaultsStep, if_neg h₀]
        rw [hset, if_neg h₀, if_neg h₀]
    · rw [objGet_cons, if_neg hk, defaultsStep_get_ne obj k₀ v₀ k hk]

theorem defaults_fold_get (sources : List JSObj) :
    ∀ (A : JSObj) (k : String),
      (∀ src, src ∈ sources → (src.map Prod.fst).Nodup) →
      objGet (sources.foldl defaultsMerge A) k =
        firstDefined (objGet A k :: sources.map (fun s => objGet s k)) := by
  induction sources with
  | nil =>
    intro A k _
    by_cases h : objGet A k = JSVal.undef
    · simp [firstDefined, h]
    · simp [firstDefined, h]
  | cons s rest ih =>
    intro A k hnd
    have hs : (s.map Prod.fst).Nodup := hnd s (by simp)
    have hrest : ∀ src, src ∈ rest → (src.map Prod.fst).Nodup := by
      intro src hmem
      exact hnd src (by simp [hmem])
    have hfold : (s :: rest).foldl defaultsMerge A =
        rest.foldl defaultsMerge (defaultsMerge A s) := rfl
    rw [hfold, ih (defaultsMerge A s) k hrest, defaultsMerge_get s A k hs]
    by_cases h : objGet A k = JSVal.undef
    · rw [if_pos h]
      have hr : firstDefined (objGet A k ::
          objGet s k :: rest.map (fun t => objGet t k)) =
          firstDefined (objGet s k :: rest.map (fun t => objGet t k)) := by
        rw [firstDefined, if_pos h]
      simp only [List.map_cons]
      rw [hr]
    · rw [if_neg h]
      have hl : firstDefined (objGet A k :: rest.map (fun t => objGet t k)) =
          objGet A k := by
        rw [firstDefined, if_neg h]
      have hr : firstDefined (objGet A k ::
          objGet s k :: rest.map (fun t => objGet t k)) = objGet A k := by
        rw [firstDefined, if_neg h]
      simp only [List.map_cons]
      rw [hl, hr]

/-- C9: at every key, `_.defaults(obj, ...sources)` leaves the first
defined value in place: the result (which in the source is `obj` itself,
mutated and returned) holds `obj`'s value when that value is defined,
and otherwise the first non-`undefined` value the sources supply for the
key — so a defined value is never overwritten and a key present with
value `undefined` is filled in from a source. -/
theorem defaults_spec (obj : JSObj) (sources : List JSObj) (k : String)
    (hobj : (obj.map Prod.fst).Nodup)
    (hsrc : ∀ src, src ∈ sources → (src.map Prod.fst).Nodup) :
    objGet (jsDefaults obj sources) k =
      firstDefined (objGet obj k :: sources.map (fun s => objGet s k)) := by
  have hfold : jsDefaults obj sources =
      sources.foldl defaultsMerge (defaultsMerge obj obj) := rfl
  have hself : objGet (defaultsMerge obj obj) k = objGet obj k := by
    rw [defaultsMerge_get obj obj k hobj]
    by_cases h : objGet obj k = JSVal.undef
    · rw [if_pos h, h]
    · rw [if_neg h]
  rw [hfold, defaults_fold_get sources (defaultsMerge obj obj) k hsrc, hself]

theorem defaults_spec_witness :
    objGet (jsDefaults [("a", JSVal.undef), ("b", JSVal.num 1)]
        [[("a", JSVal.num 2), ("b", JSVal.num 3), ("c", JSVal.num 4)]]) "a" =
      firstDefined (objGet [("a", JSVal.undef), ("b", JSVal.num 1)] "a" ::
        [[("a", JSVal.num 2), ("b", JSVal.num 3), ("c", JSVal.num 4)]].map
          (fun s => objGet s "a")) :=
  defaults_spec [("a", JSVal.undef), ("b", JSVal.num 1)]
    [[("a", JSVal.num 2), ("b", JSVal.num 3), ("c", JSVal.num 4)]] "a"
    (by decide) (by decide)

/-- The property key `memo[args]` uses: JavaScript coerces the `args`
array to a string key by `toString`, the elements' strings joined with
commas — so distinct argument arrays can share one key. -/
def argsKey (args : List JSVal) : String := jsArrToString args

/-- One call to the wrapper returned by `_.memoize(func)`: when
`memo[args] !== undefined`, return the cached value; otherwise run
`func`, store its result under `args`' string key, and return it.  The
third component records whether `func` was invoked by this call. -/
def memoizeCall (func : List JSVal → JSVal) (memo : JSObj)
    (args : List JSVal) : JSVal × JSObj × Bool :=
  if objGet memo (argsKey args) ≠ JSVal.undef then
    (objGet memo (argsKey args), memo, false)
  else
    (func args, objSet memo (argsKey args) (func args), true)

/-- A sequence of calls to one `_.memoize` wrapper, threading the private
`memo` object: for each call, its argument list, its returned value, and
whether `func` was invoked. -/
def memoizeRun (func : List JSVal → JSVal) :
    JSObj → List (List JSVal) → List (List JSVal × JSVal × Bool)
  | _, [] => []
  | memo, args :: rest =>
    (args, (memoizeCall func memo args).1, (memoizeCall func memo args).2.2) ::
      memoizeRun func (memoizeCall func memo args).2.1 rest

/-- How many calls of a trace invoked `func` on exactly this argument
list. -/
def invCount (args : List JSVal)
    (trace : List (List JSVal × JSVal × Bool)) : Nat :=
  trace.countP (fun r => decide (r.1 = args) && r.2.2)

theorem invCount_cons (args bs : List JSVal) (v : JSVal) (b : Bool)
    (tr : List (List JSVal × JSVal × Bool)) :
    invCount args ((bs, v, b) :: tr) =
      invCount args tr + (if bs = args ∧ b = true then 1 else 0) := by
  rw [invCount, List.countP_cons, invCount]
  congr 1
  by_cases h1 : bs = args <;> by_cases h2 : b = true <;> simp [h1, h2]

theorem memoizeRun_spec (func : List JSVal → JSVal) :
    ∀ (calls S : List (List JSVal)) (memo : JSObj),
      (∀ as, as ∈ S → func as ≠ JSVal.undef) →
      (∀ as, as ∈ calls → func as ≠ JSVal.undef) →
      (∀ as bs, (as ∈ S ∨ as ∈ calls) → (bs ∈ S ∨ bs ∈ calls) →
        argsKey as = argsKey bs → as = bs) →
      (∀ as, as ∈ S → objGet memo (argsKey as) = func as) →
      (∀ k, objGet memo k ≠ JSVal.undef → ∃ as, as ∈ S ∧ k = argsKey as) →
      ((memoizeRun func memo calls).map (fun r => r.2.1) = calls.map func) ∧
      (∀ as, invCount as (memoizeRun func memo calls) ≤
        if as ∈ S then 0 else 1) := by
  intro calls
  induction calls with
  | nil =>
    intro S memo hfS hfC hinj hmS hmdom
    refine ⟨rfl, ?_⟩
    intro as
    exact Nat.zero_le _
  | cons as₀ rest ih =>
    intro S memo hfS hfC hinj hmS hmdom
    by_cases hhit : objGet memo (argsKey as₀) ≠ JSVal.undef
    · obtain ⟨a', ha'S, hk⟩ := hmdom (argsKey as₀) hhit
      have heq : a' = as₀ :=
        hinj a' as₀ (Or.inl ha'S)
          (Or.inr (List.mem_cons_self as₀ rest)) hk.symm
      subst heq
      have hval : objGet memo (argsKey a') = func a' := hmS a' ha'S
      have hcall : memoizeCall func memo a' = (func a', memo, false) := by
        rw [memoizeCall, if_pos hhit, hval]
      have hfC' : ∀ as, as ∈ rest → func as ≠ JSVal.undef :=
        fun as h => hfC as (List.mem_cons_of_mem a' h)
      have hinj' : ∀ as bs, (as ∈ S ∨ as ∈ rest) → (bs ∈ S ∨ bs ∈ rest) →
          argsKey as = argsKey bs → as = bs := by
        intro as bs ha hb hkey
        refine hinj as bs ?_ ?_ hkey
        · rcases ha with h | h
          · exact Or.inl h
          · exact Or.inr (List.mem_cons_of_mem a' h)
        · rcases hb with h | h
          · exact Or.inl h
          · exact Or.inr (List.mem_cons_of_mem a' h)
      obtain ⟨ihmap, ihcnt⟩ := ih S memo hfS hfC' hinj' hmS hmdom
      constructor
      · rw [memoizeRun, hcall, List.map_cons, List.map_cons, ihmap]
      · intro as
        rw [memoizeRun, hcall, invCount_cons]
        have hz : (if a' = as ∧ (false : Bool) = true then 1 else 0) = 0 := by
          simp
        rw [hz, Nat.add_zero]
        exact ihcnt as
    · have hmiss : objGet memo (argsKey as₀) = JSVal.undef :=
        not_not.mp hhit
      have has₀ : as₀ ∉ S := by
        intro hmem
        exact (hfC as₀ (List.mem_cons_self as₀ rest))
          (by rw [← hmS as₀ hmem, hmiss])
      have hcall : memoizeCall func memo as₀ =
          (func as₀, objSet memo (argsKey as₀) (func as₀), true) := by
        rw [memoizeCall, if_neg hhit]
      have hfS' : ∀ as, as ∈ as₀ :: S → func as ≠ JSVal.undef := by
        intro as h
        rcases List.mem_cons.mp h with rfl | h2
        · exact hfC as (List.mem_cons_self as rest)
        · exact hfS as h2
      have hfC' : ∀ as, as ∈ rest → func as ≠ JSVal.undef :=
        fun as h => hfC as (List.mem_cons_of_mem as₀ h)
      have hinj' : ∀ as bs, (as ∈ as₀ :: S ∨ as ∈ rest) →
          (bs ∈ as₀ :: S ∨ bs ∈ rest) → argsKey as = argsKey bs → as = bs := by
        intro as bs ha hb hkey
        refine hinj as bs ?_ ?_ hkey
        · rcases ha with h | h
          · rcases List.mem_cons.mp h with rfl | h2
            · exact Or.inr (List.mem_cons_self as rest)
            · exact Or.inl h2
          · exact Or.inr (List.mem_cons_of_mem as₀ h)
        · rcases hb with h | h
          · rcases List.mem_cons.mp h with rfl | h2
            · exact Or.inr (List.mem_cons_self bs rest)
            · exact Or.inl h2
          · exact Or.inr (List.mem_cons_of_mem as₀ h)
      have hmS' : ∀ as, as ∈ as₀ :: S →
          objGet (objSet memo (argsKey as₀) (func as₀)) (argsKey as) =
            func as := by
        intro as h
        rcases List.mem_cons.mp h with rfl | h2
        · exact objGet_objSet_self memo (argsKey as) (func as)
        · have hne : argsKey as ≠ argsKey as₀ := by
            intro hkeq
            have : as = as₀ :=
              hinj as as₀ (Or.inl h2)
                (Or.inr (List.mem_cons_self as₀ rest)) hkeq
            subst this
            exact has₀ h2
          rw [objGet_objSet_ne memo (argsKey as₀) (argsKey as) (func as₀) hne]
          exact hmS as h2
      have hmdom' : ∀ k,
          objGet (objSet memo (argsKey as₀) (func as₀)) k ≠ JSVal.undef →
            ∃ as, as ∈ as₀ :: S ∧ k = argsKey as := by
        intro k hne
        by_cases hk : k = argsKey as₀
        · exact ⟨as₀, List.mem_cons_self as₀ S, hk⟩
        · rw [objGet_objSet_ne memo (argsKey as₀) k (func as₀) hk] at hne
          obtain ⟨as, hmem, hkey⟩ := hmdom k hne
          exact ⟨as, List.mem_cons_of_mem as₀ hmem, hkey⟩
      obtain ⟨ihmap, ihcnt⟩ :=
        ih (as₀ :: S) (objSet memo (argsKey as₀) (func as₀))
          hfS' hfC' hinj' hmS' hmdom'
      constructor
      · rw [memoizeRun, hcall, List.map_cons, List.map_cons, ihmap]
      · intro as
        rw [memoizeRun, hcall, invCount_cons]
        by_cases has : as₀ = as
        · subst has
          have h1 : (if as₀ = as₀ ∧ (true : Bool) = true then 1 else 0) = 1 := by
            simp

          rw [h1]
          have hc := ihcnt as₀
          rw [if_pos (List.mem_cons_self as₀ S)] at hc
          rw [if_neg has₀]
          exact Nat.add_le_add_right hc 1
        · have h0 : (if as₀ = as ∧ (true : Bool) = true then 1 else 0) = 0 := by
            simp [has]
          rw [h0, Nat.add_zero]
          have hc := ihcnt as
          by_cases hmem : as ∈ S
          · rw [if_pos (List.mem_cons_of_mem as₀ hmem)] at hc
            rw [if_pos hmem]
            exact hc
          · have hnm : as ∉ as₀ :: S := by
              intro h
              rcases List.mem_cons.mp h with h2 | h2
              · exact has h2.symm
              · exact hmem h2
            rw [if_neg hnm] at hc
            rw [if_neg hmem]
            exact hc

/-- C1 (amended): when `func` never returns `undefined` on the argument
lists used and the distinct argument lists of the call sequence have
pairwise distinct string keys, the `_.memoize(func)` wrapper returns
`func`'s value on every call and invokes `func` at most once per
distinct argument list. -/
theorem memoize_amended (func : List JSVal → JSVal)
    (calls : List (List JSVal))
    (hf : ∀ as, as ∈ calls → func as ≠ JSVal.undef)
    (hinj : ∀ as bs, as ∈ calls → bs ∈ calls →
      argsKey as = argsKey bs → as = bs) :
    ((memoizeRun func [] calls).map (fun r => r.2.1) = calls.map func) ∧
      (∀ as, invCount as (memoizeRun func [] calls) ≤ 1) := by
  have hinj0 : ∀ as bs, (as ∈ ([] : List (List JSVal)) ∨ as ∈ calls) →
      (bs ∈ ([] : List (List JSVal)) ∨ bs ∈ calls) →
      argsKey as = argsKey bs → as = bs := by
    intro as bs ha hb hk
    rcases ha with h | h
    · exact absurd h (List.not_mem_nil as)
    · rcases hb with h2 | h2
      · exact absurd h2 (List.not_mem_nil bs)
      · exact hinj as bs h h2 hk
  obtain ⟨hmap, hcnt⟩ := memoizeRun_spec func calls [] []
    (fun as h => absurd h (List.not_mem_nil as)) hf hinj0
    (fun as h => absurd h (List.not_mem_nil as))
    (fun k h => absurd rfl h)
  refine ⟨hmap, ?_⟩
  intro as
  have hc := hcnt as
  rw [if_neg (List.not_mem_nil as)] at hc
  exact hc

/-- A concrete function distinguishing the two colliding argument lists
of the counterexample below. -/
def memoCollide : List JSVal → JSVal
  | [JSVal.str _, JSVal.str _] => JSVal.num 3
  | [JSVal.str _] => JSVal.num 7
  | _ => JSVal.num 0

/-- C1 counterexample: the argument lists `["a", "b"]` and `["a,b"]`
share the cache key `"a,b"`, so the second call returns the first
call's cached value `3` instead of `func`'s value `7` — the wrapper does
not return, for every argument list, the value `func` returns for those
arguments, and calls with distinct argument lists are not computed
independently. -/
theorem memoize_counterexample :
    (memoizeRun memoCollide []
        [[JSVal.str "a", JSVal.str "b"], [JSVal.str "a,b"]]).map
        (fun r => r.2.1) ≠
      [[JSVal.str "a", JSVal.str "b"], [JSVal.str "a,b"]].map memoCollide := by
  decide

/-- A constant function used as the amended theorem's concrete
instance. -/
def memoConst : List JSVal → JSVal := fun _ => JSVal.num 1

theorem memoize_amended_witness :
    ((memoizeRun memoConst [] [[JSVal.str "a"], [JSVal.str "a"]]).map
        (fun r => r.2.1) =
      [[JSVal.str "a"], [JSVal.str "a"]].map memoConst) ∧
      invCount [JSVal.str "a"]
        (memoizeRun memoConst [] [[JSVal.str "a"], [JSVal.str "a"]]) ≤ 1 := by
  have h := memoize_amended memoConst [[JSVal.str "a"], [JSVal.str "a"]]
    (fun as _ h => JSVal.noConfusion h)
    (by
      intro as bs ha hb hk
      simp only [List.mem_cons, List.not_mem_nil, or_false] at ha hb
      rcases ha with rfl | rfl <;> rcases hb with rfl | rfl <;> rfl)
  exact ⟨h.1, h.2 [JSVal.str "a"]⟩
end Underbar
